import Mathlib

/-!
Verification of the spike-analysis core of the spynal repository
(src/neural_analysis/spikes.py), via a shallow embedding over ℚ.

Times (seconds) are modelled as rationals; spike trains as lists of
rationals; binary spike trains as lists of booleans; a window/bin set as a
list of (start, end) pairs.  Fallible functions return Except String.
Machine-integer behaviour (the uint16 output dtype of spike counts) is
modelled with explicit reduction mod 2 ^ 16.
-/

deriving instance DecidableEq for Except

namespace Spynal

/-- numpy round: round half to even (banker's rounding), as used by
np.round in cut_trials_spike_bool and density. -/
def roundQ (x : ℚ) : ℤ :=
  let f : ℤ := ⌊x⌋
  let r : ℚ := x - f
  if r < 1/2 then f
  else if 1/2 < r then f + 1
  else if f % 2 = 0 then f else f + 1

/-- np.allclose applied to a pair of scalars, with numpy default
tolerances rtol = 1e-5 and atol = 1e-8: |a - b| <= atol + rtol * |b|. -/
def allcloseB (a b : ℚ) : Bool :=
  |a - b| ≤ 1e-8 + 1e-5 * |b|

/-- math.isclose with Python default tolerances rel_tol = 1e-9,
abs_tol = 0: |a - b| <= rel_tol * max(|a|, |b|).  Used by times_to_bool
to test whether the bin width is 1 ms. -/
def pyIsclose (a b : ℚ) : Bool :=
  |a - b| ≤ 1e-9 * max |a| |b|

/-- _iarange (spikes.py lines 1690-1700): np.arange with an inclusive
endpoint.  For the non-integer steps used throughout (times in seconds),
the source evaluates np.arange(start, stop + 1e-12, step), whose length is
ceil((stop + 1e-12 - start) / step) clamped to be nonnegative.  Element k
is start + k * step.  (The source's isinstance(step, int) branch and
zero step are not exercised by the claims under verification.) -/
def iarange (start stop step : ℚ) : List ℚ :=
  let len : ℤ := if step = 0 then 0 else ⌈(stop + 1e-12 - start) / step⌉
  (List.range len.toNat).map (fun k : ℕ => start + (k : ℚ) * step)

/-- setup_sliding_windows (spikes.py lines 1250-1318).
With reference = none this builds window starts from lims.1 by step while
start + width stays within lims.2 (inclusive via _iarange), pairs each
start with start + width (or start + width - 1 when exclude_end), and
optionally rounds with np.round.

With reference = some r the source evaluates
np.concatenate(np.flip(_iarange(reference, lims[0], -step)),
               _iarange(reference+step, lims[-1]-width, step)) :
the two window-start arrays are passed as two positional arguments, so the
second array is consumed as np.concatenate's axis argument and numpy
raises a TypeError before any window is produced.  That branch is
therefore modelled as an error. -/
def setup_sliding_windows (width : ℚ) (lims : ℚ × ℚ) (step? : Option ℚ)
    (reference : Option ℚ) (force_int : Bool) (exclude_end? : Option Bool) :
    Except String (List (ℚ × ℚ)) :=
  let step := step?.getD width
  let excl := exclude_end?.getD force_int
  match reference with
  | some _ =>
      Except.error "TypeError: np.concatenate received the forward window array as its axis argument"
  | none =>
      let win_starts :=
        if excl then iarange lims.1 (lims.2 - width + 1) step
        else iarange lims.1 (lims.2 - width) step
      let wins := win_starts.map
        (fun s => if excl then (s, s + width - 1) else (s, s + width))
      let wins := if force_int
        then wins.map (fun b => ((roundQ b.1 : ℚ), (roundQ b.2 : ℚ)))
        else wins
      Except.ok wins

/-- The shape test bin_rate applies to an explicit bins argument
(spikes.py lines 160-161): np.asarray(bins) must be a rank-2 array with
second dimension 2.  For a nested-list input this holds exactly when the
outer list is nonempty and every row has length 2 (a ragged or empty
nesting yields rank 1, a wider row yields second dimension different
from 2). -/
def binsOK (bins : List (List ℚ)) : Bool :=
  !bins.isEmpty && bins.all (fun row => row.length = 2)

/-- View a checked (n_bins, 2) nested list as a list of (start, end)
pairs. -/
def toPairs (bins : List (List ℚ)) : List (ℚ × ℚ) :=
  bins.map (fun row => (row.headD 0, row.getD 1 0))

/-- np.diff(bins, axis=1): the width of each bin. -/
def widthsOf (bins : List (ℚ × ℚ)) : List ℚ :=
  bins.map (fun b => b.2 - b.1)

/-- bin_rate's regularity test (spikes.py line 167):
np.allclose(widths, widths[0]) and np.allclose(bins[1:,0], bins[:-1,1]). -/
def std_bins (bins : List (ℚ × ℚ)) : Bool :=
  let ws := widthsOf bins
  let w0 := ws.headD 0
  ws.all (fun w => allcloseB w w0) &&
    (((bins.drop 1).zip bins.dropLast).all (fun p => allcloseB p.1.1 p.2.2))

/-- The edge series np.hstack((bins[:,0], bins[-1,-1])) handed to
np.histogram for regular bins (spikes.py line 173). -/
def hist_edges (bins : List (ℚ × ℚ)) : List ℚ :=
  bins.map Prod.fst ++ [(bins.getLastD (0, 0)).2]

/-- _histogram_count (spikes.py lines 210-212): np.histogram(data, edges).
Given monotone edges e0 .. en, bin i counts values with
e_i <= x < e_(i+1), except the last bin, which np.histogram closes on the
right: e_(n-1) <= x <= e_n.  Values outside [e0, en] are ignored. -/
def histogram_count (data : List ℚ) : List ℚ → List ℕ
  | [e0, e1] => [data.countP (fun x => decide (e0 ≤ x ∧ x ≤ e1))]
  | e0 :: e1 :: e2 :: rest =>
      data.countP (fun x => decide (e0 ≤ x ∧ x < e1)) ::
        histogram_count data (e1 :: e2 :: rest)
  | _ => []

/-- _custom_bin_count (spikes.py lines 215-218): for each bin, the number
of spikes with start <= t < end, materialised with dtype uint16 (hence
reduced mod 2 ^ 16). -/
def custom_bin_count (data : List ℚ) (bins : List (ℚ × ℚ)) : List ℕ :=
  bins.map (fun b => data.countP (fun x => decide (b.1 ≤ x ∧ x < b.2)) % 65536)

/-- The spike count each of bin_rate's two counting paths computes before
any dtype cast: np.histogram on the edge series for regular bins, the
explicit [start, end) inclusion sum otherwise. -/
def raw_bin_counts (data : List ℚ) (bins : List (ℚ × ℚ)) : List ℕ :=
  if std_bins bins then histogram_count data (hist_edges bins)
  else bins.map (fun b => data.countP (fun x => decide (b.1 ≤ x ∧ x < b.2)))

/-- The counting core of bin_rate (spikes.py lines 163-207) for one spike
train, after the bins have been resolved.  With fewer than two bins the
source crashes: np.diff(bins, axis=1).squeeze() is then 0-d (or empty) and
widths[0] on line 167 raises IndexError.  With count = True the result
array dtype is uint16, so each stored count is reduced mod 2 ^ 16; with
count = False the counts are divided by the bin widths. -/
def bin_rate_core (data : List ℚ) (bins : List (ℚ × ℚ)) (count : Bool) :
    Except String (List ℚ × List (ℚ × ℚ)) :=
  if bins.length < 2 then
    Except.error "IndexError: widths[0] on a 0-d or empty squeezed width array"
  else
    let counts := if std_bins bins then histogram_count data (hist_edges bins)
                  else custom_bin_count data bins
    let rates : List ℚ :=
      if count then counts.map (fun c => ((c % 65536 : ℕ) : ℚ))
      else List.zipWith (fun (c : ℕ) (w : ℚ) => (c : ℚ) / w) counts
        (widthsOf bins)
    Except.ok (rates, bins)

/-- bin_rate (spikes.py lines 64-207) for a single spike-timestamp train.
The source wraps a single train in a length-1 object array, runs the
per-element counting core, and squeezes the result back out; the embedding
states that per-element computation directly.  Argument resolution
(lines 152-161): with no explicit bins, lims is required and bins are
generated by setup_sliding_windows(width, lims, step); an explicit bins
argument must pass the (n_bins, 2) shape check and makes lims unused. -/
def bin_rate (data : List ℚ) (lims : Option (ℚ × ℚ)) (width step : ℚ)
    (binsIn : Option (List (List ℚ))) (count : Bool) :
    Except String (List ℚ × List (ℚ × ℚ)) :=
  match binsIn with
  | none =>
      match lims with
      | none =>
          Except.error "ValueError: Must input lims = full time range of analysis (or set custom bins)"
      | some l =>
          match setup_sliding_windows width l (some step) none false none with
          | Except.error e => Except.error e
          | Except.ok bins => bin_rate_core data bins count
  | some b =>
      if binsOK b then bin_rate_core data (toPairs b) count
      else Except.error "ValueError: bins must be given as (n_bins,2) array of bin start,end times"

/-- _isbinary (spikes.py lines 1667-1674) on flat numeric data: every
value lies in {0, 1}. -/
def isbinary (data : List ℚ) : Bool :=
  data.all (fun x => x = 0 || x = 1)

/-- _spike_data_type (spikes.py lines 1646-1664) restricted to a flat
numeric 1-D input.  The source's timestamp test on line 1658 is
(data.sort() == data).all(); ndarray.sort() sorts in place and returns
None, and comparing None against an array elementwise yields all False, so
the test succeeds only for empty input (where .all() is vacuously true).
A nonempty non-binary numeric vector therefore always falls through to
the numeric-dtype branch and is classified as a rate array. -/
def spike_data_type_1d (data : List ℚ) : String :=
  if isbinary data then "bool"
  else if data.isEmpty then "timestamp"
  else "rate"

/-- bool_to_times (spikes.py lines 553-603) for a single spike train:
the boolean mask t[spike_bool] selecting the time samples at which the
train is True (the source requires the mask and time vector to have equal
length; all uses below satisfy that). -/
def bool_to_times (spike_bool : List Bool) (t : List ℚ) : List ℚ :=
  (t.zip spike_bool).filterMap (fun p => if p.2 then some p.1 else none)

/-- The part of times_to_bool (spikes.py lines 639-656) that runs after
the 1 ms limit adjustment: build the bin set with
setup_sliding_windows(width, lims, step=width), take the bin centers as
the time sampling vector, count spikes per bin with bin_rate, and cast the
per-bin rates to booleans (nonzero count in a bin gives True). -/
def times_to_bool_core (spike_times : List ℚ) (lims : ℚ × ℚ) (width : ℚ) :
    Except String (List Bool × List ℚ) :=
  match setup_sliding_windows width lims (some width) none false none with
  | Except.error e => Except.error e
  | Except.ok bins =>
      let timepts := bins.map (fun b => (b.1 + b.2) / 2)
      match bin_rate spike_times none width width
          (some (bins.map (fun b => [b.1, b.2]))) false with
      | Except.error e => Except.error e
      | Except.ok (rates, _) =>
          Except.ok (rates.map (fun r => decide (r ≠ 0)), timepts)

/-- times_to_bool (spikes.py lines 606-656) for a single spike train given
lims and a bin width: when the width is (isclose to) 1 ms, the limits are
first extended by half a millisecond on each side so that bin centers fall
on whole-millisecond values (line 646). -/
def times_to_bool (spike_times : List ℚ) (lims : ℚ × ℚ) (width : ℚ) :
    Except String (List Bool × List ℚ) :=
  let lims' := if pyIsclose width 1e-3 then (lims.1 - 0.5e-3, lims.2 + 0.5e-3)
               else lims
  times_to_bool_core spike_times lims' width

/-- The SpikeTrain -> BinaryTrain -> SpikeTrain round trip of the spec:
bool_to_times applied to the binary train and bin-center vector produced
by times_to_bool. -/
def round_trip (spike_times : List ℚ) (lims : ℚ × ℚ) (width : ℚ) :
    Except String (List ℚ) :=
  match times_to_bool spike_times lims width with
  | Except.error e => Except.error e
  | Except.ok (sb, timepts) => Except.ok (bool_to_times sb timepts)

/-- scipy.stats.mode on a list of integers: the most frequent value,
with ties broken towards the smallest value. -/
def listMode (l : List ℤ) : ℤ :=
  l.foldl
    (fun best x =>
      if l.count x > l.count best ∨ (l.count x = l.count best ∧ x < best)
      then x else best)
    (l.headD 0)

/-- _check_window_lengths (spikes.py lines 1750-1782) on integer sample
windows.  With fewer than two windows the source crashes: the squeezed
np.diff is 0-d (or empty) and window_lengths[0] raises IndexError.  When
all lengths agree (np.allclose) the windows pass through; otherwise each
window end is shifted to give every window the modal length, provided no
length differs from the mode by more than tol = 1 (else an error). -/
def check_window_lengths (windows : List (ℤ × ℤ)) :
    Except String (List (ℤ × ℤ)) :=
  if windows.length < 2 then
    Except.error "IndexError: window_lengths[0] on a 0-d or empty squeezed array"
  else
    let lengths : List ℤ := windows.map (fun p => p.2 - p.1)
    let l0 : ℤ := lengths.headD 0
    if lengths.all (fun l => allcloseB (l : ℚ) (l0 : ℚ)) then Except.ok windows
    else
      let modal := listMode lengths
      let max_diff := (lengths.map (fun l => |l - modal|)).foldl max 0
      if max_diff ≤ 1 then
        Except.ok (windows.map (fun p => (p.1, p.2 + (modal - (p.2 - p.1)))))
      else
        Except.error "ValueError: Variable-length windows unsupported. All windows must have same length"

/-- Python slice l[a : b] for integer bounds 0 <= a and b taken literally
(so b = 0 gives an empty slice, as in data[buffer:-buffer] with a zero
buffer). -/
def pySlice (l : List α) (a b : ℕ) : List α :=
  (l.take b).drop a

/-- cut_trials_spike_bool (spikes.py lines 763-812) for 1-D continuous
boolean data with axis = 0.  Trial [start, end] times are rounded to
sample indices with np.round; windows must index inside the data
(min >= 0 and max < n_samples, else a range error), are equalised by
_check_window_lengths, and each trial is the inclusive sample slice
data[start : end + 1].  The result is modelled as the list of per-trial
slices: its length is the new trailing trial-axis length and each
element's length is the cut time-axis length. -/
def cut_trials_spike_bool (data : List Bool) (trial_lims : List (List ℚ))
    (smp_rate : ℚ) : Except String (List (List Bool)) :=
  if !(binsOK trial_lims) then
    Except.error "AssertionError: trial_lims argument should be a (n_trials,2) array of trial start,end times"
  else
    let idxs := (toPairs trial_lims).map
      (fun p => (roundQ (smp_rate * p.1), roundQ (smp_rate * p.2)))
    if ((idxs.map (fun p => min p.1 p.2)).foldl min 0) < 0 then
      Except.error "ValueError: trial_lims are attempting to index before start of data"
    else if ¬ ((idxs.map (fun p => max p.1 p.2)).foldl max 0 < (data.length : ℤ)) then
      Except.error "ValueError: trial_lims are attempting to index beyond end of data"
    else
      match check_window_lengths idxs with
      | Except.error e => Except.error e
      | Except.ok idxs' =>
          Except.ok (idxs'.map
            (fun p => pySlice data p.1.toNat (p.2.toNat + 1)))

/-- realign_spike_times (spikes.py lines 880-915) on a 1-D trial-cut
collection (trial_axis = 0).  The source loops over align_times and
executes spike_times[trial,...] = spike_times[trial,...] - align_time,
writing the shifted copies back into the caller's object array; trials
beyond the length of align_times are left untouched.  The embedding
returns the post-call state of that array, which is also the function's
return value (the source returns the same, mutated, array). -/
def realign_spike_times (spike_times : List (List ℚ)) (align_times : List ℚ) :
    List (List ℚ) :=
  (List.range spike_times.length).map
    (fun i =>
      if i < align_times.length then
        (spike_times.getD i []).map (fun s => s - align_times.getD i 0)
      else spike_times.getD i [])

/-- scipy.signal.convolve(data, kernel, mode='same'): entry j of the
result is entry j + (k - 1) / 2 of the full convolution, where k is the
kernel length (output centred, same length as data). -/
def convolve_same (data kernel : List ℚ) : List ℚ :=
  let k := kernel.length
  (List.range data.length).map (fun j =>
    ((List.range k).map (fun l =>
      kernel.getD l 0 *
        (if l ≤ j + (k - 1) / 2 then data.getD (j + (k - 1) / 2 - l) 0 else 0))).sum)

/-- The reflected edge padding density applies to boolean data
(spikes.py lines 319-324): n_buffer samples mirrored from each end
(indices n_buffer .. 1 before the data, n - 2 .. n - 1 - n_buffer after
it). -/
def reflect_pad (data : List Bool) (n_buffer : ℕ) : List Bool :=
  ((List.range n_buffer).reverse.map (fun j => data.getD (j + 1) false)) ++
    data ++
    ((List.range n_buffer).map (fun j => data.getD (data.length - 2 - j) false))

/-- The zero-spike fix of density (spikes.py lines 359-363): if the
buffer-free data contains no spike at all, every rate sample is forced to
exactly zero. -/
def zero_fix (data2 : List Bool) (rates : List ℚ) : List ℚ :=
  if data2.any id then rates else rates.map (fun _ => 0)

/-- density (spikes.py lines 225-369) for a single boolean spike train
along the last axis, with the kernel given directly as an array (the
isinstance(kernel, np.ndarray) branch of _str_to_kernel).  Following the
source: the sample period dt is the mean of np.diff(t) and the sample
rate its rounded reciprocal; a nonzero buffer (seconds) becomes
n_buffer = round(buffer * smp_rate) samples of reflected padding
(indices n_buffer .. 1 before, n - 2 .. n - 1 - n_buffer after); the
kernel is normalised to unit area (divided by sum / smp_rate); the padded
0/1 data is convolved with mode='same'; the buffer is sliced back off
data and rates (data[n_buffer : -n_buffer]); the rates are downsampled by
striding; and any train whose buffer-free data contains no spike has its
rates forced to exactly zero (the line 359-363 kludge). -/
def density_bool (data : List Bool) (kernel : List ℚ) (buffer : ℚ)
    (downsmp : ℕ) (t : List ℚ) : List ℚ :=
  let diffs := List.zipWith (fun a b => b - a) t t.tail
  let dt := diffs.sum / (diffs.length : ℚ)
  let smp_rate : ℤ := roundQ (1 / dt)
  let n_buffer : ℕ := (roundQ (buffer * (smp_rate : ℚ))).toNat
  let padded := if buffer ≠ 0 then reflect_pad data n_buffer else data
  let kernelNorm := kernel.map (fun x => x / (kernel.sum / (smp_rate : ℚ)))
  let rates := convolve_same (padded.map (fun b => if b then (1 : ℚ) else 0))
    kernelNorm
  let rates2 :=
    if buffer ≠ 0 then
      pySlice rates n_buffer (if n_buffer = 0 then 0 else rates.length - n_buffer)
    else rates
  let data2 :=
    if buffer ≠ 0 then
      pySlice padded n_buffer (if n_buffer = 0 then 0 else padded.length - n_buffer)
    else padded
  let rates3 :=
    if downsmp ≠ 1 then
      (List.range ((rates2.length + downsmp - 1) / downsmp)).map
        (fun i => rates2.getD (i * downsmp) 0)
    else rates2
  zero_fix data2 rates3

/-- The arithmetic bin set produced by setup_sliding_windows for an
exactly tiling width: m contiguous bins of width w starting at a. -/
def arithBins (a w : ℚ) (m : ℕ) : List (ℚ × ℚ) :=
  (List.range m).map (fun k : ℕ => (a + (k : ℚ) * w, a + (k : ℚ) * w + w))

/-! ### Helper lemmas -/

theorem getD_all_false {data : List Bool} (h : ∀ b ∈ data, b = false) (i : ℕ) :
    data.getD i false = false := by
  rcases lt_or_le i data.length with hi | hi
  · rw [List.getD_eq_getElem data false hi]
    exact h _ (data.getElem_mem hi)
  · exact List.getD_eq_default data false hi

theorem mem_pySlice {α : Type} {l : List α} {a b : ℕ} {x : α}
    (h : x ∈ pySlice l a b) : x ∈ l :=
  List.mem_of_mem_take (List.mem_of_mem_drop h)

theorem reflect_pad_all_false {data : List Bool} (h : ∀ b ∈ data, b = false)
    (nb : ℕ) : ∀ b ∈ reflect_pad data nb, b = false := by
  intro b hb
  unfold reflect_pad at hb
  rcases List.mem_append.mp hb with hb | hb
  · rcases List.mem_append.mp hb with hb | hb
    · obtain ⟨j, -, rfl⟩ := List.mem_map.mp hb
      exact getD_all_false h _
    · exact h _ hb
  · obtain ⟨j, -, rfl⟩ := List.mem_map.mp hb
    exact getD_all_false h _

theorem zero_fix_of_no_spike {data2 : List Bool} (h : ∀ b ∈ data2, b = false)
    (rates : List ℚ) : ∀ r ∈ zero_fix data2 rates, r = 0 := by
  intro r hr
  unfold zero_fix at hr
  rw [List.any_eq_false.mpr (fun a ha => by simp [h a ha])] at hr
  simp only [Bool.false_eq_true, if_false, List.mem_map] at hr
  obtain ⟨-, -, rfl⟩ := hr
  rfl

theorem toPairs_map_pair (l : List (ℚ × ℚ)) :
    toPairs (l.map (fun b => [b.1, b.2])) = l := by
  induction l with
  | nil => rfl
  | cons a l ih => simpa [toPairs] using ih

theorem binsOK_map_pair (l : List (ℚ × ℚ)) (h : l ≠ []) :
    binsOK (l.map (fun b => [b.1, b.2])) = true := by
  unfold binsOK
  rw [Bool.and_eq_true]
  refine ⟨by simpa using h, List.all_eq_true.mpr ?_⟩
  intro b hb
  obtain ⟨p, -, rfl⟩ := List.mem_map.mp hb
  rfl

/-! ### Claim theorems -/

/-- C7: for every input spike train containing zero spikes, density
returns a rate vector that is exactly zero at every output time sample,
regardless of the kernel, buffer, and downsample settings used.  (A
boolean train with no True sample is a zero-spike train; a zero-spike
timestamp train inside a collection is binarised to exactly such an
all-False row before the identical convolution pipeline runs.) -/
theorem density_zero_spike_train (data : List Bool) (kernel : List ℚ)
    (buffer : ℚ) (downsmp : ℕ) (t : List ℚ) (h : ∀ b ∈ data, b = false) :
    ∀ r ∈ density_bool data kernel buffer downsmp t, r = 0 := by
  simp only [density_bool]
  apply zero_fix_of_no_spike
  intro b hb
  by_cases hbuf : buffer = 0
  · rw [if_neg (fun hne => hne hbuf), if_neg (fun hne => hne hbuf)] at hb
    exact h _ hb
  · rw [if_pos hbuf, if_pos hbuf] at hb
    exact reflect_pad_all_false h _ _ (mem_pySlice hb)

/-- Witness for C7 at a concrete zero-spike input. -/
theorem density_zero_spike_train_witness :
    (∀ b ∈ [false, false, false], b = false) ∧
    ∀ r ∈ density_bool [false, false, false] [1, 2, 1] (1/2) 2
        [0, 1/1000, 2/1000], r = 0 :=
  ⟨by decide, density_zero_spike_train _ _ _ _ _ (by decide)⟩

/-- C9: bin_rate fails with a configuration error whenever neither limits
nor explicit bins is given, and fails with a shape error whenever a
supplied bins array is not rank-2 with exactly 2 columns; in both cases
only the error is returned (no partial result). -/
theorem bin_rate_error_handling (data : List ℚ) (lims : Option (ℚ × ℚ))
    (width step : ℚ) (count : Bool) (bins : List (List ℚ))
    (hbad : binsOK bins = false) :
    bin_rate data none width step none count =
      Except.error "ValueError: Must input lims = full time range of analysis (or set custom bins)" ∧
    bin_rate data lims width step (some bins) count =
      Except.error "ValueError: bins must be given as (n_bins,2) array of bin start,end times" := by
  refine ⟨rfl, ?_⟩
  simp [bin_rate, hbad]

/-- Witness for C9: a rank-2 bins array with 3 columns fails the shape
check. -/
theorem bin_rate_error_handling_witness :
    binsOK [[(1:ℚ), 2, 3]] = false ∧
    (bin_rate [1] none 1 1 none true =
        Except.error "ValueError: Must input lims = full time range of analysis (or set custom bins)" ∧
      bin_rate [1] none 1 1 (some [[(1:ℚ), 2, 3]]) true =
        Except.error "ValueError: bins must be given as (n_bins,2) array of bin start,end times") :=
  ⟨by decide, bin_rate_error_handling [1] none 1 1 true [[(1:ℚ), 2, 3]] (by decide)⟩

/-- C10: with count = True, bin_rate stores its result in a uint16 array:
for every bin the returned value is the count computed by the selected
algorithm reduced mod 2 ^ 16, and no error is raised, so a bin with more
than 65535 spikes silently wraps around. -/
theorem bin_rate_count_uint16 (data : List ℚ) (bins : List (ℚ × ℚ))
    (lims : Option (ℚ × ℚ)) (width step : ℚ) (h2 : 2 ≤ bins.length) :
    bin_rate data lims width step (some (bins.map (fun b => [b.1, b.2]))) true =
      Except.ok ((raw_bin_counts data bins).map (fun c => ((c % 65536 : ℕ) : ℚ)),
        bins) := by
  have hne : bins ≠ [] := by
    intro hnil
    rw [hnil] at h2
    simp at h2
  simp only [bin_rate, binsOK_map_pair _ hne, if_true, toPairs_map_pair]
  unfold bin_rate_core
  rw [if_neg (by omega : ¬ bins.length < 2)]
  unfold raw_bin_counts
  by_cases hstd : std_bins bins
  · simp [hstd]
  · simp only [hstd, Bool.false_eq_true, if_false, custom_bin_count,
      List.map_map]
    refine congrArg (fun r => Except.ok (r, bins)) (List.map_congr_left ?_)
    intro b _
    simp [Nat.mod_mod_of_dvd _ dvd_rfl]

/-- Witness for C10 on a concrete train and bin set. -/
theorem bin_rate_count_uint16_witness :
    2 ≤ ([((0:ℚ), (1:ℚ)), (1, 2)]).length ∧
    bin_rate [1/2] none 1 1
        (some (([((0:ℚ), (1:ℚ)), (1, 2)]).map (fun b => [b.1, b.2]))) true =
      Except.ok ((raw_bin_counts [1/2] [((0:ℚ), (1:ℚ)), (1, 2)]).map
        (fun c => ((c % 65536 : ℕ) : ℚ)), [((0:ℚ), (1:ℚ)), (1, 2)]) :=
  ⟨by decide, bin_rate_count_uint16 [1/2] [((0:ℚ), (1:ℚ)), (1, 2)] none 1 1
    (by decide)⟩

unseal Rat.add Rat.sub Rat.mul Rat.inv Rat.ofScientific in
/-- C2 (code bug): bin_rate's docstring and the claim say a bin is
[start, end) and a timestamp outside every bin is never counted, but on
regular bins the histogram fast path (np.histogram) closes the final bin:
a spike exactly at the final bin's end, which lies in no [start, end)
bin, is counted in the last bin. -/
theorem bin_rate_counts_final_edge_spike :
    (∀ b ∈ [((0:ℚ), (1:ℚ)), (1, 2)], ¬ (b.1 ≤ 2 ∧ (2:ℚ) < b.2)) ∧
    bin_rate [2] none 1 1 (some [[0, 1], [1, 2]]) true =
      Except.ok ([0, 1], [(0, 1), (1, 2)]) := by decide

unseal Rat.add Rat.sub Rat.mul Rat.inv Rat.ofScientific in
/-- C4 (code bug): a flat numeric ascending 1-D input with a value
outside {0, 1} is classified as a rate array, not as timestamps, because
the source's sortedness test (data.sort() == data).all() compares the
None returned by in-place sort against the data and is never true on
nonempty input. -/
theorem spike_data_type_sorted_numeric_is_rate :
    List.Pairwise (· ≤ ·) [(1:ℚ)/10, 1/2, 2] ∧
    (∃ x ∈ [(1:ℚ)/10, 1/2, 2], x ≠ 0 ∧ x ≠ 1) ∧
    spike_data_type_1d [(1:ℚ)/10, 1/2, 2] = "rate" := by decide

unseal Rat.add Rat.sub Rat.mul Rat.inv Rat.ofScientific in
/-- C8 counterexample: realignment is not read-only on its input.  The
source loop writes spike_times[trial,...] - align_time back into the
caller's object array, so after the call the input collection holds the
shifted values: realigning [[1,2],[3]] by align times [1,2] leaves the
caller's collection equal to [[0,1],[1]], not to the original
[[1,2],[3]]. -/
theorem realign_spike_times_mutates_input :
    realign_spike_times [[1, 2], [3]] [1, 2] = [[0, 1], [1]] ∧
    ([[0, 1], [1]] : List (List ℚ)) ≠ [[1, 2], [3]] := by decide

/-- C8 (amended): realign_spike_times produces, for each trial, the
original timestamps minus that trial's align time; but it stores those
shifted copies in the caller's collection (the returned container is the
mutated input), so the input is not left unchanged. -/
theorem realign_spike_times_shifts (spike_times : List (List ℚ))
    (align_times : List ℚ) (h : align_times.length = spike_times.length) :
    (realign_spike_times spike_times align_times).length =
      spike_times.length ∧
    ∀ i, i < spike_times.length →
      (realign_spike_times spike_times align_times).getD i [] =
        (spike_times.getD i []).map (fun s => s - align_times.getD i 0) := by
  constructor
  · simp [realign_spike_times]
  · intro i hi
    unfold realign_spike_times
    rw [List.getD_eq_getElem _ _ (by simpa using hi)]
    rw [List.getElem_map, List.getElem_range]
    rw [if_pos (h ▸ hi)]

/-- Witness for C8 (amended) at the counterexample input. -/
theorem realign_spike_times_shifts_witness :
    ([(1:ℚ), 2] : List ℚ).length = ([[1, 2], [3]] : List (List ℚ)).length ∧
    ((realign_spike_times [[1, 2], [3]] [1, 2]).length =
        ([[1, 2], [3]] : List (List ℚ)).length ∧
      ∀ i, i < ([[1, 2], [3]] : List (List ℚ)).length →
        (realign_spike_times [[1, 2], [3]] [1, 2]).getD i [] =
          (([[1, 2], [3]] : List (List ℚ)).getD i []).map
            (fun s => s - ([(1:ℚ), 2]).getD i 0)) :=
  ⟨rfl, realign_spike_times_shifts [[1, 2], [3]] [1, 2] rfl⟩

unseal Rat.add Rat.sub Rat.mul Rat.inv Rat.ofScientific in
/-- C1 counterexample: on the regular window set [[0,1],[1,2]] (equal
width, contiguous, std_bins holds so bin_rate takes the fast path), a
spike exactly at the final bin's end is counted by the histogram path but
not by the explicit [start, end) path, so the two paths disagree. -/
theorem counting_paths_disagree_at_final_edge :
    std_bins [((0:ℚ), 1), (1, 2)] = true ∧
    custom_bin_count [2] [((0:ℚ), 1), (1, 2)] ≠
      histogram_count [2] (hist_edges [((0:ℚ), 1), (1, 2)]) := by decide

set_option maxRecDepth 100000 in
set_option maxRecDepth 100000 in
unseal Rat.add Rat.sub Rat.mul Rat.inv Rat.ofScientific in
/-- C3 counterexample: on continuous boolean data of 1000 samples at
1000 Hz, trial limits [[0, 0.5], [0.5, 1.0]] do not yield a trial-cut
array: the end time 1.0 s rounds to sample index 1000, which fails the
bound check (max index must be < 1000), so the call raises the range
error instead of returning 2 trials of about 500 samples. -/
theorem cut_trials_spec_input_raises :
    cut_trials_spike_bool (List.replicate 1000 false) [[0, 1/2], [1/2, 1]]
        1000 =
      Except.error "ValueError: trial_lims are attempting to index beyond end of data" := by
  decide

set_option maxRecDepth 100000 in
unseal Rat.add Rat.sub Rat.mul Rat.inv Rat.ofScientific in
/-- C3 (amended): the spec's example input raises the range error (end
1.0 s maps to sample index 1000, one past the last valid index 999, since
trials are cut with inclusive endpoint indices); trial windows whose
rounded sample indices stay in bounds, e.g. [[0, 0.499], [0.5, 0.999]],
return a new trailing trial axis of length 2 with time-axis length 500
(within the claimed 500 plus or minus 1). -/
theorem cut_trials_bool_shapes :
    cut_trials_spike_bool (List.replicate 1000 false) [[0, 1/2], [1/2, 1]]
        1000 =
      Except.error "ValueError: trial_lims are attempting to index beyond end of data" ∧
    cut_trials_spike_bool (List.replicate 1000 false)
        [[0, 499/1000], [1/2, 999/1000]] 1000 =
      Except.ok [List.replicate 500 false, List.replicate 500 false] := by
  decide

theorem allcloseB_self (a : ℚ) : allcloseB a a = true := by
  have h : |a - a| ≤ 1e-8 + 1e-5 * |a| := by
    rw [sub_self, abs_zero]
    positivity
  simpa [allcloseB] using h

theorem histogram_count_cons (data : List ℚ) (e0 e1 : ℚ) (es : List ℚ)
    (h : es ≠ []) :
    histogram_count data (e0 :: e1 :: es) =
      data.countP (fun x => decide (e0 ≤ x ∧ x < e1)) ::
        histogram_count data (e1 :: es) := by
  cases es with
  | nil => exact absurd rfl h
  | cons e2 rest => rfl

theorem getLastD_irrel {α : Type} (l : List α) (hne : l ≠ []) (d1 d2 : α) :
    l.getLastD d1 = l.getLastD d2 := by
  rw [List.getLastD_eq_getLast?, List.getLastD_eq_getLast?,
    List.getLast?_eq_getLast l hne]
  rfl

theorem chain'_zip_drop_dropLast {α : Type} {R : α → α → Prop} {l : List α}
    (h : List.Chain' R l) :
    ∀ p ∈ (l.drop 1).zip l.dropLast, R p.2 p.1 := by
  intro p hp
  rw [List.mem_iff_getElem] at hp
  obtain ⟨i, hi, rfl⟩ := hp
  have hlen : i + 1 < l.length := by
    simp only [List.length_zip, List.length_drop, List.length_dropLast] at hi
    omega
  rw [List.getElem_zip]
  simp only [List.getElem_drop, List.getElem_dropLast]
  have hr := List.chain'_iff_get.mp h i (by omega)
  simp only [List.get_eq_getElem] at hr
  simpa [Nat.add_comm 1 i] using hr

/-- The two counting paths agree bin by bin whenever the bins are
contiguous, no spike sits exactly on the final edge, and no count
overflows the uint16 cast. -/
theorem custom_eq_histogram_aux (data : List ℚ) :
    ∀ bins : List (ℚ × ℚ), bins ≠ [] →
      List.Chain' (fun a b : ℚ × ℚ => a.2 = b.1) bins →
      (∀ x ∈ data, x ≠ (bins.getLastD (0, 0)).2) →
      (∀ b ∈ bins,
        data.countP (fun x => decide (b.1 ≤ x ∧ x < b.2)) < 65536) →
      custom_bin_count data bins = histogram_count data (hist_edges bins) := by
  intro bins
  induction bins with
  | nil => intro h; exact absurd rfl h
  | cons b0 rest ih =>
    intro _ hchain hedge hsmall
    cases rest with
    | nil =>
        show [data.countP (fun x => decide (b0.1 ≤ x ∧ x < b0.2)) % 65536] =
          [data.countP (fun x => decide (b0.1 ≤ x ∧ x ≤ b0.2))]
        congr 1
        rw [Nat.mod_eq_of_lt (hsmall b0 (List.mem_singleton_self b0))]
        refine List.countP_congr ?_
        intro x hx
        have hxe : x ≠ b0.2 := hedge x hx
        change decide (b0.1 ≤ x ∧ x < b0.2) = true ↔
          decide (b0.1 ≤ x ∧ x ≤ b0.2) = true
        simp only [decide_eq_true_eq]
        constructor
        · exact fun hc => ⟨hc.1, le_of_lt hc.2⟩
        · exact fun hc => ⟨hc.1, lt_of_le_of_ne hc.2 hxe⟩
    | cons b1 rest2 =>
        have hne2 : b1 :: rest2 ≠ ([] : List (ℚ × ℚ)) := by simp
        have hchain2 : List.Chain' (fun a b : ℚ × ℚ => a.2 = b.1)
            (b1 :: rest2) := (List.chain'_cons.mp hchain).2
        have hrel : b0.2 = b1.1 := (List.chain'_cons.mp hchain).1
        have hlastOf : (b0 :: b1 :: rest2).getLastD ((0:ℚ), (0:ℚ)) =
            (b1 :: rest2).getLastD ((0:ℚ), (0:ℚ)) := by
          rw [List.getLastD_cons]
          exact getLastD_irrel _ hne2 _ _
        have hedge2 : ∀ x ∈ data, x ≠ ((b1 :: rest2).getLastD (0, 0)).2 := by
          intro x hx
          have := hedge x hx
          rwa [hlastOf] at this
        have hsmall2 : ∀ b ∈ b1 :: rest2,
            data.countP (fun x => decide (b.1 ≤ x ∧ x < b.2)) < 65536 :=
          fun b hb => hsmall b (List.mem_cons_of_mem b0 hb)
        have hhead : hist_edges (b0 :: b1 :: rest2) =
            b0.1 :: hist_edges (b1 :: rest2) := by
          simp only [hist_edges, List.map_cons, List.cons_append, hlastOf]
        rw [custom_bin_count, List.map_cons, hhead]
        have hedges_ne : hist_edges (b1 :: rest2) ≠ [] := by
          simp [hist_edges]
        have hedges_head : ∃ tl, hist_edges (b1 :: rest2) = b1.1 :: tl ∧
            tl ≠ [] := by
          refine ⟨rest2.map Prod.fst ++
            [((b1 :: rest2).getLastD ((0:ℚ), (0:ℚ))).2], ?_, by simp⟩
          simp [hist_edges]
        obtain ⟨tl, htl, htlne⟩ := hedges_head
        rw [htl, histogram_count_cons data b0.1 b1.1 tl htlne, ← htl]
        rw [← custom_bin_count, ih hne2 hchain2 hedge2 hsmall2]
        congr 1
        rw [Nat.mod_eq_of_lt (hsmall b0 (List.mem_cons_self b0 _))]
        refine List.countP_congr ?_
        intro x _
        change decide (b0.1 ≤ x ∧ x < b0.2) = true ↔
          decide (b0.1 ≤ x ∧ x < b1.1) = true
        rw [hrel]

unseal Rat.add Rat.sub Rat.mul Rat.inv Rat.ofScientific in
/-- C1 (amended): for every spike input and every regular WindowSet
(equal widths, each bin's start equal to the previous bin's end; this
makes std_bins hold, so bin_rate selects the fast histogram path), the
fast histogram path and the explicit [start, end) inclusion path produce
identical counts in every bin, provided no spike lies exactly on the
final bin's end and no bin's count reaches 2 ^ 16. -/
theorem counting_paths_agree_on_regular_bins (data : List ℚ)
    (bins : List (ℚ × ℚ)) (hne : bins ≠ [])
    (hw : ∀ b ∈ bins,
      b.2 - b.1 = (bins.headD (0, 0)).2 - (bins.headD (0, 0)).1)
    (hcont : List.Chain' (fun a b : ℚ × ℚ => a.2 = b.1) bins)
    (hedge : ∀ x ∈ data, x ≠ (bins.getLastD (0, 0)).2)
    (hsmall : ∀ b ∈ bins,
      data.countP (fun x => decide (b.1 ≤ x ∧ x < b.2)) < 65536) :
    std_bins bins = true ∧
    custom_bin_count data bins = histogram_count data (hist_edges bins) := by
  refine ⟨?_, custom_eq_histogram_aux data bins hne hcont hedge hsmall⟩
  unfold std_bins
  rw [Bool.and_eq_true]
  constructor
  · refine List.all_eq_true.mpr ?_
    intro w hwmem
    obtain ⟨b, hb, rfl⟩ := List.mem_map.mp hwmem
    have hhd : (widthsOf bins).headD 0 =
        (bins.headD (0, 0)).2 - (bins.headD (0, 0)).1 := by
      cases bins with
      | nil => exact absurd rfl hne
      | cons b0 rest => simp [widthsOf]
    rw [hhd, hw b hb]
    exact allcloseB_self _
  · refine List.all_eq_true.mpr ?_
    intro p hp
    have := chain'_zip_drop_dropLast hcont p hp
    rw [this]
    exact allcloseB_self _

unseal Rat.add Rat.sub Rat.mul Rat.inv Rat.ofScientific in
/-- Witness for C1 (amended) on concrete regular bins with an interior
boundary spike. -/
theorem counting_paths_agree_on_regular_bins_witness :
    (([((0:ℚ), 1), (1, 2)] : List (ℚ × ℚ)) ≠ [] ∧
      (∀ b ∈ [((0:ℚ), 1), (1, 2)],
        b.2 - b.1 = (([((0:ℚ), 1), (1, 2)]).headD (0, 0)).2 -
          (([((0:ℚ), 1), (1, 2)]).headD (0, 0)).1) ∧
      List.Chain' (fun a b : ℚ × ℚ => a.2 = b.1) [((0:ℚ), 1), (1, 2)] ∧
      (∀ x ∈ [(1:ℚ)/2, 1, 3/2],
        x ≠ (([((0:ℚ), 1), (1, 2)]).getLastD (0, 0)).2) ∧
      (∀ b ∈ [((0:ℚ), 1), (1, 2)],
        ([(1:ℚ)/2, 1, 3/2]).countP
          (fun x => decide (b.1 ≤ x ∧ x < b.2)) < 65536)) ∧
    (std_bins [((0:ℚ), 1), (1, 2)] = true ∧
      custom_bin_count [(1:ℚ)/2, 1, 3/2] [((0:ℚ), 1), (1, 2)] =
        histogram_count [(1:ℚ)/2, 1, 3/2]
          (hist_edges [((0:ℚ), 1), (1, 2)])) :=
  ⟨⟨by decide, by decide, List.chain'_pair.mpr rfl, by decide, by decide⟩,
    counting_paths_agree_on_regular_bins [(1:ℚ)/2, 1, 3/2]
      [((0:ℚ), 1), (1, 2)] (by decide) (by decide)
      (List.chain'_pair.mpr rfl) (by decide) (by decide)⟩

theorem getD_range_map {β : Type} (d : β) (f : ℕ → β) {n i : ℕ} (h : i < n) :
    ((List.range n).map f).getD i d = f i := by
  rw [List.getD_eq_getElem _ _ (by simpa using h)]
  simp

theorem arithBins_length (a w : ℚ) (m : ℕ) : (arithBins a w m).length = m := by
  simp [arithBins]

theorem arithBins_ne_nil (a w : ℚ) {m : ℕ} (hm : 1 ≤ m) :
    arithBins a w m ≠ [] := by
  intro h
  have := arithBins_length a w m
  rw [h] at this
  simp at this
  omega

theorem hist_edges_arith (a w : ℚ) (k : ℕ) :
    hist_edges (arithBins a w (k + 1)) =
      (List.range (k + 2)).map (fun j : ℕ => a + (j : ℚ) * w) := by
  unfold hist_edges arithBins
  have hlast : ((List.range (k + 1)).map
      (fun j : ℕ => ((a + (j:ℚ) * w, a + (j:ℚ) * w + w) : ℚ × ℚ))).getLastD
        (0, 0) = (a + (k:ℚ) * w, a + (k:ℚ) * w + w) := by
    rw [List.range_succ, List.map_append]
    simp
  rw [hlast, List.map_map]
  rw [List.range_succ (n := k + 1), List.map_append]
  refine congrArg₂ _ (List.map_congr_left fun j _ => rfl) ?_
  simp only [List.map_singleton]
  congr 1
  push_cast
  ring

theorem chain'_arithBins (a w : ℚ) (m : ℕ) :
    List.Chain' (fun p q : ℚ × ℚ => p.2 = q.1) (arithBins a w m) := by
  rw [List.chain'_iff_get]
  intro i hi
  unfold arithBins at hi ⊢
  simp only [List.get_eq_getElem, List.getElem_map, List.getElem_range]
  push_cast
  ring

theorem std_bins_arith (a w : ℚ) {m : ℕ} (hm : 1 ≤ m) :
    std_bins (arithBins a w m) = true := by
  unfold std_bins
  rw [Bool.and_eq_true]
  constructor
  · refine List.all_eq_true.mpr ?_
    intro w' hw'
    obtain ⟨b, hb, rfl⟩ := List.mem_map.mp hw'
    obtain ⟨k, -, rfl⟩ := List.mem_map.mp hb
    have hhd : (widthsOf (arithBins a w m)).headD 0 = w := by
      obtain ⟨m', rfl⟩ : ∃ m', m = m' + 1 := ⟨m - 1, by omega⟩
      rw [widthsOf, arithBins, List.range_succ_eq_map]
      simp only [List.map_cons, List.map_map, List.headD_cons]
      push_cast
      ring
    rw [hhd]
    have hb2 : ((a + (k:ℚ) * w, a + (k:ℚ) * w + w) : ℚ × ℚ).2 -
        (a + (k:ℚ) * w, a + (k:ℚ) * w + w).1 = w := by ring
    rw [hb2]
    exact allcloseB_self w
  · refine List.all_eq_true.mpr ?_
    intro p hp
    have hrel := chain'_zip_drop_dropLast (chain'_arithBins a w m) p hp
    rw [hrel]
    exact allcloseB_self _

theorem histogram_count_length (data : List ℚ) :
    (es : List ℚ) → (histogram_count data es).length = es.length - 1
  | [] => rfl
  | [_] => rfl
  | [_, _] => rfl
  | e0 :: e1 :: e2 :: rest => by
      rw [histogram_count_cons data e0 e1 (e2 :: rest) (by simp)]
      rw [List.length_cons, histogram_count_length data (e1 :: e2 :: rest)]
      simp only [List.length_cons]
      omega

theorem histogram_count_getD_open (data : List ℚ) :
    (es : List ℚ) → (i : ℕ) → i + 2 < es.length →
      (histogram_count data es).getD i 0 =
        data.countP (fun x => decide (es.getD i 0 ≤ x ∧ x < es.getD (i + 1) 0))
  | [], i, h => by simp at h
  | [_], i, h => by simp at h
  | [_, _], i, h => by simp at h
  | e0 :: e1 :: e2 :: rest, 0, h => by
      rw [histogram_count_cons data e0 e1 (e2 :: rest) (by simp)]
      rfl
  | e0 :: e1 :: e2 :: rest, j + 1, h => by
      rw [histogram_count_cons data e0 e1 (e2 :: rest) (by simp)]
      rw [List.getD_cons_succ, List.getD_cons_succ, List.getD_cons_succ]
      exact histogram_count_getD_open data (e1 :: e2 :: rest) j
        (by simp only [List.length_cons] at h ⊢; omega)

theorem histogram_count_getD_last (data : List ℚ) :
    (es : List ℚ) → 2 ≤ es.length →
      (histogram_count data es).getD (es.length - 2) 0 =
        data.countP (fun x => decide (es.getD (es.length - 2) 0 ≤ x ∧
          x ≤ es.getD (es.length - 1) 0))
  | [], h => by simp at h
  | [_], h => by simp at h
  | [e0, e1], _ => by rfl
  | e0 :: e1 :: e2 :: rest, _ => by
      have h1 : (e0 :: e1 :: e2 :: rest).length - 2 = rest.length + 1 := by
        simp only [List.length_cons]
        omega
      have h2 : (e0 :: e1 :: e2 :: rest).length - 1 =
          (rest.length + 1) + 1 := by
        simp only [List.length_cons]
        omega
      rw [histogram_count_cons data e0 e1 (e2 :: rest) (by simp), h1, h2]
      rw [List.getD_cons_succ, List.getD_cons_succ, List.getD_cons_succ]
      have hrec := histogram_count_getD_last data (e1 :: e2 :: rest) (by simp)
      have h3 : (e1 :: e2 :: rest).length - 2 = rest.length := by
        simp only [List.length_cons]
        omega
      have h4 : (e1 :: e2 :: rest).length - 1 = rest.length + 1 := by
        simp only [List.length_cons]
        omega
      rw [h3, h4] at hrec
      exact hrec

theorem iarange_tiling (a w : ℚ) (m : ℕ) (hw : (1e-12 : ℚ) ≤ w) :
    iarange a (a + m * w - w) w =
      (List.range m).map (fun k : ℕ => a + (k : ℚ) * w) := by
  have hw0 : (0:ℚ) < w := lt_of_lt_of_le (by norm_num) hw
  unfold iarange
  rw [if_neg (ne_of_gt hw0)]
  have hlen : (⌈(a + (m:ℚ) * w - w + 1e-12 - a) / w⌉ : ℤ) = m := by
    have hx : (a + (m:ℚ) * w - w + 1e-12 - a) / w =
        1e-12 / w + (((m:ℤ) - 1 : ℤ) : ℚ) := by
      push_cast
      field_simp
      ring
    rw [hx, Int.ceil_add_int]
    have hc : (⌈(1e-12 : ℚ) / w⌉ : ℤ) = 1 := by
      rw [Int.ceil_eq_iff]
      constructor
      · have hpos : (0:ℚ) < 1e-12 / w := by positivity
        push_cast
        linarith
      · push_cast
        rw [div_le_one hw0]
        exact hw
    rw [hc]
    omega
  rw [hlen]
  simp [Int.toNat_natCast]

theorem setup_windows_tiling (a w : ℚ) (m : ℕ) (hw : (1e-12 : ℚ) ≤ w) :
    setup_sliding_windows w (a, a + m * w) (some w) none false none =
      Except.ok (arithBins a w m) := by
  unfold setup_sliding_windows
  simp only [Option.getD_some, Option.getD_none, Bool.false_eq_true,
    if_false]
  rw [iarange_tiling a w m hw, List.map_map]
  rfl

theorem bin_rate_arith (T : List ℚ) (a w : ℚ) {m : ℕ} (hm : 2 ≤ m) :
    bin_rate T none w w
        (some ((arithBins a w m).map (fun b => [b.1, b.2]))) false =
      Except.ok
        (List.zipWith (fun (c : ℕ) (ww : ℚ) => (c : ℚ) / ww)
          (histogram_count T (hist_edges (arithBins a w m)))
          (widthsOf (arithBins a w m)), arithBins a w m) := by
  have hne : arithBins a w m ≠ [] := arithBins_ne_nil a w (by omega)
  simp only [bin_rate, binsOK_map_pair _ hne, if_true, toPairs_map_pair]
  unfold bin_rate_core
  rw [if_neg (by rw [arithBins_length]; omega),
    std_bins_arith a w (by omega : 1 ≤ m)]
  simp

theorem times_to_bool_core_arith (T : List ℚ) (a w : ℚ) {m : ℕ}
    (hw : (1e-12 : ℚ) ≤ w) (hm : 2 ≤ m) :
    times_to_bool_core T (a, a + m * w) w =
      Except.ok
        ((List.zipWith (fun (c : ℕ) (ww : ℚ) => (c : ℚ) / ww)
            (histogram_count T (hist_edges (arithBins a w m)))
            (widthsOf (arithBins a w m))).map (fun r => decide (r ≠ 0)),
          (arithBins a w m).map (fun b => (b.1 + b.2) / 2)) := by
  unfold times_to_bool_core
  rw [setup_windows_tiling a w m hw]
  dsimp only
  rw [bin_rate_arith T a w hm]

theorem zipWith_replicate_right {γ δ : Type} (f : γ → ℚ → δ) (c : ℚ) :
    ∀ L : List γ,
      List.zipWith f L (List.replicate L.length c) = L.map (fun x => f x c)
  | [] => rfl
  | x :: L => by
      rw [List.length_cons, List.replicate_succ, List.zipWith_cons_cons,
        List.map_cons, zipWith_replicate_right f c L]

theorem getD_map_lt {γ δ : Type} (g : γ → δ) (L : List γ) (i : ℕ) (d : γ)
    (dd : δ) (h : i < L.length) : (L.map g).getD i dd = g (L.getD i d) := by
  rw [List.getD_eq_getElem _ _ (by simpa using h), List.getElem_map,
    List.getD_eq_getElem _ _ h]

theorem widthsOf_arith (a w : ℚ) (m : ℕ) :
    widthsOf (arithBins a w m) = List.replicate m w := by
  unfold widthsOf arithBins
  rw [List.map_map]
  rw [List.eq_replicate_iff]
  constructor
  · simp
  · intro b hb
    obtain ⟨j, -, rfl⟩ := List.mem_map.mp hb
    show (a + (j:ℚ) * w + w) - (a + (j:ℚ) * w) = w
    ring

theorem nodup_zip_left {α β : Type} :
    ∀ {A : List α} (B : List β), A.Nodup → (A.zip B).Nodup
  | [], _, _ => by simp
  | _ :: _, [], _ => by simp
  | a :: A, b :: B, h => by
      rw [List.zip_cons_cons, List.nodup_cons]
      rw [List.nodup_cons] at h
      exact ⟨fun hmem => h.1 (List.of_mem_zip hmem).1, nodup_zip_left B h.2⟩

theorem eq_range_map_getD {γ : Type} (d : γ) :
    ∀ L : List γ, L = (List.range L.length).map (fun i => L.getD i d)
  | [] => rfl
  | x :: L => by
      rw [List.length_cons, List.range_succ_eq_map, List.map_cons,
        List.map_map]
      congr 1
      conv_lhs => rw [eq_range_map_getD d L]
      refine List.map_congr_left ?_
      intro i _
      rfl

/-- The full quantization behaviour of the composed round trip on an
exactly tiling bin set: the returned timestamps are precisely the centers
of the occupied bins. -/
theorem round_trip_core_props (T : List ℚ) (a w : ℚ) {m : ℕ}
    (hw : (1e-12 : ℚ) ≤ w) (hm : 2 ≤ m)
    (hT : ∀ x ∈ T, a ≤ x ∧ x ≤ a + m * w) :
    let S := bool_to_times
      ((List.zipWith (fun (c : ℕ) (ww : ℚ) => (c : ℚ) / ww)
          (histogram_count T (hist_edges (arithBins a w m)))
          (widthsOf (arithBins a w m))).map (fun r => decide (r ≠ 0)))
      ((arithBins a w m).map (fun b => (b.1 + b.2) / 2))
    S.Nodup ∧ (∀ x ∈ T, ∃ c ∈ S, |c - x| ≤ w / 2) ∧
      (∀ c ∈ S, ∃ x ∈ T, |c - x| ≤ w / 2) := by
  intro S
  have hw0 : (0 : ℚ) < w := lt_of_lt_of_le (by norm_num) hw
  obtain ⟨k, rfl⟩ : ∃ k, m = k + 1 := ⟨m - 1, by omega⟩
  have hk1 : 1 ≤ k := by omega
  set cnts := histogram_count T (hist_edges (arithBins a w (k + 1)))
    with hcntsdef
  have hedges : hist_edges (arithBins a w (k + 1)) =
      (List.range (k + 2)).map (fun j : ℕ => a + (j : ℚ) * w) :=
    hist_edges_arith a w k
  have hcntlen : cnts.length = k + 1 := by
    rw [hcntsdef, histogram_count_length, hedges]
    simp
  -- canonical filterMap form of the round-trip output
  have hSdef : S = (List.range (k + 1)).filterMap (fun i : ℕ =>
      if cnts.getD i 0 ≠ 0 then some (a + (i : ℚ) * w + w / 2) else none) := by
    show bool_to_times
      ((List.zipWith (fun (c : ℕ) (ww : ℚ) => (c : ℚ) / ww) cnts
          (widthsOf (arithBins a w (k + 1)))).map (fun r => decide (r ≠ 0)))
      ((arithBins a w (k + 1)).map (fun b => (b.1 + b.2) / 2)) = _
    have hSBeq : (List.zipWith (fun (c : ℕ) (ww : ℚ) => (c : ℚ) / ww) cnts
        (widthsOf (arithBins a w (k + 1)))).map (fun r => decide (r ≠ 0)) =
        (List.range (k + 1)).map
          (fun i : ℕ => decide (((cnts.getD i 0 : ℚ) / w) ≠ 0)) := by
      rw [widthsOf_arith, show k + 1 = cnts.length from hcntlen.symm,
        zipWith_replicate_right, List.map_map]
      conv_lhs => rw [eq_range_map_getD 0 cnts]
      rw [List.map_map, hcntlen]
      rfl
    have hTPeq : (arithBins a w (k + 1)).map
        (fun b : ℚ × ℚ => (b.1 + b.2) / 2) =
        (List.range (k + 1)).map
          (fun i : ℕ => ((a + (i:ℚ) * w) + (a + (i:ℚ) * w + w)) / 2) := by
      unfold arithBins
      rw [List.map_map]
      rfl
    unfold bool_to_times
    rw [hSBeq, hTPeq, List.zip_map', List.filterMap_map]
    refine congrArg (fun f => List.filterMap f (List.range (k + 1)))
      (funext fun i => ?_)
    show (if decide (((cnts.getD i 0 : ℚ) / w) ≠ 0) = true
      then some (((a + (i:ℚ) * w) + (a + (i:ℚ) * w + w)) / 2) else none) = _
    refine if_congr ?_ (congrArg some (by ring)) rfl
    rw [decide_eq_true_eq, div_ne_zero_iff]
    constructor
    · intro hcc
      exact_mod_cast hcc.1
    · intro hcc
      exact ⟨by exact_mod_cast hcc, ne_of_gt hw0⟩
  -- membership characterization
  have hmem : ∀ c : ℚ, c ∈ S ↔ ∃ i : ℕ, i < k + 1 ∧ cnts.getD i 0 ≠ 0 ∧
      c = a + (i : ℚ) * w + w / 2 := by
    intro c
    rw [hSdef, List.mem_filterMap]
    constructor
    · rintro ⟨i, hi, hfi⟩
      rw [List.mem_range] at hi
      by_cases hcnd : cnts.getD i 0 ≠ 0
      · rw [if_pos hcnd] at hfi
        exact ⟨i, hi, hcnd, (Option.some_injective _ hfi).symm⟩
      · rw [if_neg hcnd] at hfi
        exact absurd hfi (by simp)
    · rintro ⟨i, hi, hcnd, rfl⟩
      exact ⟨i, List.mem_range.mpr hi, by rw [if_pos hcnd]⟩
  -- the two counting characterizations
  have hedgeD : ∀ j : ℕ, j < k + 2 →
      (hist_edges (arithBins a w (k + 1))).getD j 0 = a + (j : ℚ) * w := by
    intro j hj
    rw [hedges]
    exact getD_range_map 0 _ hj
  have hcnt_open : ∀ i : ℕ, i < k → (cnts.getD i 0 ≠ 0 ↔
      ∃ x ∈ T, a + (i : ℚ) * w ≤ x ∧ x < a + (i : ℚ) * w + w) := by
    intro i hik
    rw [hcntsdef, histogram_count_getD_open T _ i
      (by rw [hedges]; simp only [List.length_map, List.length_range]; omega)]
    rw [hedgeD i (by omega), hedgeD (i + 1) (by omega)]
    rw [← Nat.pos_iff_ne_zero, List.countP_pos_iff]
    constructor
    · rintro ⟨x, hx, hpx⟩
      rw [decide_eq_true_eq] at hpx
      refine ⟨x, hx, hpx.1, ?_⟩
      have h2 := hpx.2
      push_cast at h2
      linarith
    · rintro ⟨x, hx, h1, h2⟩
      refine ⟨x, hx, ?_⟩
      rw [decide_eq_true_eq]
      refine ⟨h1, ?_⟩
      push_cast
      linarith
  have hcnt_last : cnts.getD k 0 ≠ 0 ↔
      ∃ x ∈ T, a + (k : ℚ) * w ≤ x ∧ x ≤ a + (k : ℚ) * w + w := by
    have hl := histogram_count_getD_last T (hist_edges (arithBins a w (k + 1)))
      (by rw [hedges]; simp)
    have hlen2 : (hist_edges (arithBins a w (k + 1))).length - 2 = k := by
      rw [hedges]
      simp
    have hlen1 : (hist_edges (arithBins a w (k + 1))).length - 1 = k + 1 := by
      rw [hedges]
      simp
    rw [hlen2, hlen1] at hl
    rw [hcntsdef, hl, hedgeD k (by omega), hedgeD (k + 1) (by omega)]
    rw [← Nat.pos_iff_ne_zero, List.countP_pos_iff]
    constructor
    · rintro ⟨x, hx, hpx⟩
      rw [decide_eq_true_eq] at hpx
      refine ⟨x, hx, hpx.1, ?_⟩
      have h2 := hpx.2
      push_cast at h2
      linarith
    · rintro ⟨x, hx, h1, h2⟩
      refine ⟨x, hx, ?_⟩
      rw [decide_eq_true_eq]
      refine ⟨h1, ?_⟩
      push_cast
      linarith
  refine ⟨?_, ?_, ?_⟩
  · -- Nodup
    rw [hSdef]
    refine (List.nodup_range (k + 1)).filterMap ?_
    intro i j b hbi hbj
    by_cases hci : cnts.getD i 0 ≠ 0
    · rw [if_pos hci] at hbi
      by_cases hcj : cnts.getD j 0 ≠ 0
      · rw [if_pos hcj] at hbj
        rw [Option.mem_some_iff] at hbi hbj
        have hij : a + (i : ℚ) * w + w / 2 = a + (j : ℚ) * w + w / 2 := by
          rw [hbi, hbj]
        have hiq : (i : ℚ) * w = (j : ℚ) * w := by linarith
        have := mul_right_cancel₀ (ne_of_gt hw0) hiq
        exact_mod_cast this
      · rw [if_neg hcj] at hbj
        exact absurd hbj (by simp)
    · rw [if_neg hci] at hbi
      exact absurd hbi (by simp)
  · -- every spike maps to the center of its bin
    intro x hx
    obtain ⟨hx1, hx2⟩ := hT x hx
    have hx2' : x ≤ a + ((k : ℚ) + 1) * w := by
      push_cast at hx2
      linarith
    rcases lt_or_eq_of_le hx2' with hlt | heq
    · -- x strictly inside the tiled range
      have hθ0 : (0 : ℚ) ≤ (x - a) / w := div_nonneg (by linarith) (le_of_lt hw0)
      have hflnn : 0 ≤ ⌊(x - a) / w⌋ := Int.floor_nonneg.mpr hθ0
      have hfl : ((⌊(x - a) / w⌋ : ℤ) : ℚ) ≤ (x - a) / w := Int.floor_le _
      have hfl2 : (x - a) / w < ⌊(x - a) / w⌋ + 1 := Int.lt_floor_add_one _
      have hicast : ((⌊(x - a) / w⌋.toNat : ℕ) : ℚ) = ((⌊(x - a) / w⌋ : ℤ) : ℚ) := by
        exact_mod_cast Int.toNat_of_nonneg hflnn
      have hmul : ((x - a) / w) * w = x - a := div_mul_cancel₀ _ (ne_of_gt hw0)
      have hlow : a + (⌊(x - a) / w⌋.toNat : ℚ) * w ≤ x := by
        rw [hicast]
        nlinarith [mul_le_mul_of_nonneg_right hfl (le_of_lt hw0)]
      have hhigh : x < a + (⌊(x - a) / w⌋.toNat : ℚ) * w + w := by
        rw [hicast]
        nlinarith [mul_le_mul_of_nonneg_right (le_of_lt hfl2) (le_of_lt hw0)]
      have hik1 : ⌊(x - a) / w⌋.toNat < k + 1 := by
        have hq : ((⌊(x - a) / w⌋.toNat : ℕ) : ℚ) < (k : ℚ) + 1 := by
          rw [hicast]
          calc ((⌊(x - a) / w⌋ : ℤ) : ℚ) ≤ (x - a) / w := hfl
            _ < (k : ℚ) + 1 := by
              rw [div_lt_iff hw0]
              linarith
        exact_mod_cast hq
      set i := ⌊(x - a) / w⌋.toNat with hidef
      have hcnt : cnts.getD i 0 ≠ 0 := by
        rcases lt_or_eq_of_le (Nat.lt_succ_iff.mp hik1) with hik | hieq
        · exact (hcnt_open i hik).mpr ⟨x, hx, hlow, hhigh⟩
        · rw [hieq]
          exact hcnt_last.mpr ⟨x, hx, by rw [← hieq]; exact hlow,
            by rw [← hieq]; linarith⟩
      refine ⟨a + (i : ℚ) * w + w / 2, (hmem _).mpr ⟨i, hik1, hcnt, rfl⟩, ?_⟩
      rw [abs_le]
      constructor
      · linarith
      · linarith
    · -- x exactly at the final bin's closed end
      have hcnt : cnts.getD k 0 ≠ 0 := by
        refine hcnt_last.mpr ⟨x, hx, ?_, ?_⟩
        · rw [heq]
          nlinarith
        · rw [heq]
          linarith
      refine ⟨a + (k : ℚ) * w + w / 2, (hmem _).mpr ⟨k, by omega, hcnt, rfl⟩,
        ?_⟩
      rw [heq, abs_le]
      constructor
      · linarith
      · linarith
  · -- every returned timestamp is near some spike
    intro c hc
    obtain ⟨i, hik1, hcnt, rfl⟩ := (hmem c).mp hc
    rcases lt_or_eq_of_le (Nat.lt_succ_iff.mp hik1) with hik | hieq
    · obtain ⟨x, hx, h1, h2⟩ := (hcnt_open i hik).mp hcnt
      refine ⟨x, hx, ?_⟩
      rw [abs_le]
      constructor
      · linarith
      · linarith
    · subst hieq
      obtain ⟨x, hx, h1, h2⟩ := hcnt_last.mp hcnt
      refine ⟨x, hx, ?_⟩
      rw [abs_le]
      constructor
      · linarith
      · linarith

/-- C6 (amended): when the analysis range is an exact integer multiple
m >= 2 of the bin width (so the generated bins tile the full range), the
width is at least 1e-12 (so the 1e-12 inclusive-endpoint slack in
_iarange adds exactly one window start), and the width is either exactly
1 ms or not within math.isclose tolerance of it (for 1 ms the range is
first extended by half a bin on each side), the round trip
bool_to_times(times_to_bool(T, lims, dt), centers) returns, without
error, a duplicate-free list of bin centers in which every original
spike has a center within dt/2 of it (the center of the bin containing
it) and every returned center is within dt/2 of some original spike;
several spikes in one bin yield a single center. -/
theorem round_trip_quantizes_to_bin_centers (T : List ℚ) (l1 l2 w : ℚ)
    (m : ℕ) (hw : (1e-12 : ℚ) ≤ w)
    (hms : w = 1e-3 ∨ pyIsclose w 1e-3 = false)
    (hm : 2 ≤ m) (hspan : l2 = l1 + m * w)
    (hT : ∀ x ∈ T, l1 ≤ x ∧ x ≤ l2) :
    ∃ S : List ℚ, round_trip T (l1, l2) w = Except.ok S ∧ S.Nodup ∧
      (∀ x ∈ T, ∃ c ∈ S, |c - x| ≤ w / 2) ∧
      (∀ c ∈ S, ∃ x ∈ T, |c - x| ≤ w / 2) := by
  subst hspan
  unfold round_trip times_to_bool
  rcases hms with h1 | h1
  · subst h1
    have hclose : pyIsclose (1e-3 : ℚ) 1e-3 = true := by
      unfold pyIsclose
      rw [sub_self, abs_zero]
      simp only [decide_eq_true_eq]
      positivity
    rw [hclose]
    simp only [if_true]
    have harg : (((l1, l1 + (m : ℚ) * 1e-3) : ℚ × ℚ).1 - 0.5e-3,
        ((l1, l1 + (m : ℚ) * 1e-3) : ℚ × ℚ).2 + 0.5e-3) =
        (l1 - 0.5e-3, (l1 - 0.5e-3) + ((m + 1 : ℕ) : ℚ) * 1e-3) := by
      refine Prod.ext rfl ?_
      show l1 + (m : ℚ) * 1e-3 + 0.5e-3 = _
      push_cast
      ring
    rw [harg, times_to_bool_core_arith T (l1 - 0.5e-3) 1e-3 (by norm_num)
      (by omega)]
    have hp := round_trip_core_props T (l1 - 0.5e-3) 1e-3 (by norm_num)
      (by omega : 2 ≤ m + 1) ?_
    · obtain ⟨hp1, hp2, hp3⟩ := hp
      exact ⟨_, rfl, hp1, hp2, hp3⟩
    · intro x hx
      obtain ⟨hu, hv⟩ := hT x hx
      constructor
      · linarith
      · push_cast
        linarith
  · rw [h1]
    simp only [Bool.false_eq_true, if_false]
    rw [times_to_bool_core_arith T l1 w hw hm]
    have hp := round_trip_core_props T l1 w hw hm hT
    obtain ⟨hp1, hp2, hp3⟩ := hp
    exact ⟨_, rfl, hp1, hp2, hp3⟩

unseal Rat.add Rat.sub Rat.mul Rat.inv Rat.ofScientific in
/-- Witness for C6 (amended): limits [0, 1] tiled by 4 bins of width
0.25, spikes at 0.25 (an interior boundary) and 1.0 (the final closed
edge). -/
theorem round_trip_quantizes_to_bin_centers_witness :
    ((1e-12 : ℚ) ≤ 1/4 ∧
      ((1:ℚ)/4 = 1e-3 ∨ pyIsclose (1/4) 1e-3 = false) ∧
      2 ≤ 4 ∧ (1 : ℚ) = 0 + (4 : ℕ) * (1/4) ∧
      (∀ x ∈ [(1:ℚ)/4, 1], (0:ℚ) ≤ x ∧ x ≤ 1)) ∧
    (∃ S : List ℚ, round_trip [(1:ℚ)/4, 1] ((0:ℚ), 1) (1/4) =
        Except.ok S ∧ S.Nodup ∧
      (∀ x ∈ [(1:ℚ)/4, 1], ∃ c ∈ S, |c - x| ≤ (1/4) / 2) ∧
      (∀ c ∈ S, ∃ x ∈ [(1:ℚ)/4, 1], |c - x| ≤ (1/4) / 2)) :=
  ⟨⟨by norm_num, Or.inr (by decide), by norm_num, by push_cast; norm_num,
      by decide⟩,
    round_trip_quantizes_to_bin_centers [(1:ℚ)/4, 1] 0 1 (1/4) 4
      (by norm_num) (Or.inr (by decide)) (by norm_num)
      (by push_cast; norm_num) (by decide)⟩

unseal Rat.add Rat.sub Rat.mul Rat.inv Rat.ofScientific in
/-- C6 counterexample: a spike can fall within the given limits and still
be dropped by the round trip.  With lims = [0, 1] and dt = 0.3 the
generated bins are [0,0.3), [0.3,0.6), [0.6,0.9]; the spike at 0.95 lies
within the limits but in no bin, so the round trip returns no timestamp at
all for it, refuting the claim that every in-limits spike yields exactly
one timestamp within dt/2 of it. -/
theorem round_trip_drops_spike_outside_bins :
    ((0:ℚ) ≤ 19/20 ∧ (19:ℚ)/20 ≤ 1) ∧
    round_trip [19/20] ((0:ℚ), 1) (3/10) = Except.ok [] := by decide

/-- C5 (code bug): setup_sliding_windows with a non-None reference never
returns a window set: the source passes the backward and forward window
arrays to np.concatenate as two positional arguments, so the second array
is consumed as the axis argument and numpy raises a TypeError. -/
theorem setup_sliding_windows_reference_raises :
    setup_sliding_windows (1/10) ((0:ℚ), 1) (some (1/10)) (some (1/2)) false
        none =
      Except.error "TypeError: np.concatenate received the forward window array as its axis argument" := by
  rfl

end Spynal
